import Mathlib

/-!
# goepeg: thumbnail scale computation and codec sessions

A shallow embedding of `epeg.go`.

* Go `int` is a 64-bit signed integer on the only targets the package links
  against (`linux_amd64`, `darwin_amd64`); it is embedded as `ℤ`.
* Go `float64` is IEEE-754 binary64 with round-to-nearest, ties-to-even.  A finite
  `float64` is embedded as the rational number it denotes, and every conversion and
  arithmetic operation rounds its exact result with `round64`.
* The native codec (`Epeg.h`, cgo) is an external collaborator.  Each run is
  embedded as a pure function of the codec's answers that also returns the
  sequence of native calls it made, deferred calls included.
-/

namespace Epeg

/-! ## float64 arithmetic -/

/-- Round a rational to the nearest integer, ties going to the even neighbour. -/
def roundHalfEven (t : ℚ) : ℤ :=
  let f := ⌊t⌋
  let r := t - f
  if r < 1 / 2 then f else if 1 / 2 < r then f + 1 else if f % 2 = 0 then f else f + 1

/-- Round a rational to binary64: the significand keeps 53 bits, so a value with
binary exponent `e = ⌊log₂ |q|⌋` is rounded to a multiple of `2 ^ (e - 52)`.
Every magnitude met by `imageSize` on 64-bit integers is `0` or lies between
`2 ^ (-63)` and `2 ^ 126`, inside the normal range of binary64, so neither gradual
underflow nor overflow to infinity occurs and neither is modelled. -/
def round64 (q : ℚ) : ℚ :=
  if q = 0 then 0
  else
    let s : ℤ := 52 - Int.log 2 |q|
    (roundHalfEven (q * 2 ^ s) : ℚ) / 2 ^ s

/-- Go conversion `float64(n)` of an `int`. -/
def float64 (n : ℤ) : ℚ := round64 n

/-- Go `x * y` on `float64`. -/
def fmul (x y : ℚ) : ℚ := round64 (x * y)

/-- Go `x / y` on `float64`.  Division by zero yields an infinity or a NaN,
embedded as `none`. -/
def fdiv (x y : ℚ) : Option ℚ :=
  if y = 0 then none else some (round64 (x / y))

/-- The least 64-bit integer. -/
def minInt64 : ℤ := -(2 ^ 63)

/-- Go conversion `int(f)` of a `float64`: the fraction is discarded (truncation
towards zero).  When the value does not fit the Go specification leaves the result
to the implementation; amd64 (`CVTTSD2SQ`) yields the least 64-bit integer, also
for an infinity or a NaN. -/
def toInt (f : Option ℚ) : ℤ :=
  match f with
  | none => minInt64
  | some q =>
    let t : ℤ := if 0 ≤ q then ⌊q⌋ else ⌈q⌉
    if minInt64 ≤ t ∧ t < 2 ^ 63 then t else minInt64

/-! ## Scale computation -/

/-- The function `imageSize` of `epeg.go`. -/
def imageSize (imageWidth imageHeight maxWidth maxHeight : ℤ) : ℤ × ℤ :=
  if imageWidth > imageHeight then
    (maxWidth,
      toInt (fdiv (fmul (float64 maxHeight) (float64 imageHeight)) (float64 imageWidth)))
  else
    (toInt (fdiv (fmul (float64 maxWidth) (float64 imageWidth)) (float64 imageHeight)),
      maxHeight)

/-! ## The native codec -/

/-- A C pointer; `0` is the null pointer (`nil` on the Go side). -/
abbrev Ptr := ℕ

/-- Conversion of a Go `int` to the 32-bit C `int`. -/
def cint (n : ℤ) : ℤ := (n + 2 ^ 31) % 2 ^ 32 - 2 ^ 31

/-- Modelled from the spec: the native transform codes `C.EPEG_TRANSFORM_*` that
`Transform` refers to.  Their declaration is in `Epeg.h`, a header that is not among
the sources, so they are taken as eight distinct symbols, in the order in which the
specification enumerates the transforms. -/
inductive EpegTransform where
  | NONE
  | FLIP_H
  | FLIP_V
  | TRANSPOSE
  | TRANSVERSE
  | ROT_90
  | ROT_180
  | ROT_270
  deriving DecidableEq, Repr

/-- Modelled from the spec: the rank of a native transform code.  The numeric
values are fixed by `Epeg.h`, which is not among the sources; the rank follows the
order in which the specification enumerates the transforms. -/
def EpegTransform.index : EpegTransform → ℤ
  | .NONE => 0
  | .FLIP_H => 1
  | .FLIP_V => 2
  | .TRANSPOSE => 3
  | .TRANSVERSE => 4
  | .ROT_90 => 5
  | .ROT_180 => 6
  | .ROT_270 => 7

/-- The Go struct `Result`: the pointer and the length the encoder fills in. -/
structure Result where
  p : Ptr
  size : ℤ
  deriving DecidableEq, Repr

/-- A native call made through cgo, with the arguments (and for some the result)
that matter to the session discipline. -/
inductive Call where
  /-- The call `C.CString(s)` on a string of `len` bytes, returning `ret`. -/
  | CString (len : ℕ) (ret : Ptr)
  /-- The call `C.free(p)`. -/
  | free (p : Ptr)
  /-- The call `C.epeg_memory_open(p, len)`, returning `ret`. -/
  | epeg_memory_open (p : Ptr) (len : ℤ) (ret : Ptr)
  /-- The call `C.epeg_file_open(path)`, returning `ret`. -/
  | epeg_file_open (path : Ptr) (ret : Ptr)
  | epeg_close (img : Ptr)
  | epeg_size_get (img : Ptr)
  | epeg_decode_size_set (img : Ptr) (w h : ℤ)
  | epeg_quality_set (img : Ptr) (quality : ℤ)
  | epeg_memory_output_set (img : Ptr)
  /-- The call `C.epeg_encode(img)`, returning `ret`. -/
  | epeg_encode (img : Ptr) (ret : ℤ)
  /-- The call `C.GoBytes(p, size)`: copies `size` bytes from `p` into a Go slice. -/
  | GoBytes (p : Ptr) (size : ℤ)
  | epeg_transform_set (img : Ptr) (code : EpegTransform)
  | epeg_file_output_set (img : Ptr) (out : Ptr)
  /-- The call `C.epeg_transform(img)`, returning `ret`. -/
  | epeg_transform (img : Ptr) (ret : ℤ)
  | epeg_error (img : Ptr)
  deriving DecidableEq, Repr

/-- A call registered by a Go `defer` statement.  Go evaluates the function value
and the arguments of the call when the `defer` statement runs, the receiver of a
method with a value receiver included, and saves them; the call itself runs when
the surrounding function returns. -/
inductive Deferred where
  /-- The statement `defer C.free(p)`. -/
  | free (p : Ptr)
  /-- The statement `defer C.epeg_close(img)`. -/
  | epeg_close (img : Ptr)
  /-- The statement `defer res.Release()`, with the copy of `res` taken at the `defer`. -/
  | Release (r : Result)
  deriving DecidableEq, Repr

/-- The method `Result.Release`: the call `C.free(r.p)`. -/
def Result.Release (r : Result) : Call := Call.free r.p

/-- The native call a deferred call performs. -/
def Deferred.run : Deferred → Call
  | .free p => Call.free p
  | .epeg_close img => Call.epeg_close img
  | .Release r => r.Release

/-- Function return: the deferred calls run in last-in-first-out order after the
calls made so far.  `defers` holds the most recently deferred call first. -/
def unwind (defers : List Deferred) (calls : List Call) : List Call :=
  calls ++ defers.map Deferred.run

/-- The function `C.GoBytes(p, size)`, with `memory p` the bytes of the native buffer
that starts at `p`.  A length of `0` yields the empty slice whatever `p` is; a
negative length panics (`gobytes: length out of range`); a copy from the null pointer
or of more bytes than the buffer holds reads outside every buffer and has no result.
The outcome `none` stands for a call that does not return. -/
def GoBytes (memory : Ptr → List UInt8) (p : Ptr) (size : ℤ) : Option (List UInt8) :=
  if size = 0 then some []
  else if size < 0 then none
  else if p = 0 then none
  else if size.toNat ≤ (memory p).length then some ((memory p).take size.toNat)
  else none

/-- The method `Result.Bytes`: the call `C.GoBytes(r.p, r.size)`. -/
def Result.Bytes (memory : Ptr → List UInt8) (r : Result) : Option (List UInt8) :=
  GoBytes memory r.p r.size

/-- The encoder populated the buffer of `r`: either it reports no bytes, or `r.p` is a
non-null pointer to a buffer that holds at least `r.size` bytes. -/
def Result.populated (memory : Ptr → List UInt8) (r : Result) : Prop :=
  r.size = 0 ∨ (0 < r.size ∧ r.p ≠ 0 ∧ r.size.toNat ≤ (memory r.p).length)

/-- Whether the buffer is populated can be computed. -/
instance Result.decidablePopulated (memory : Ptr → List UInt8) (r : Result) :
    Decidable (r.populated memory) := by
  unfold Result.populated
  infer_instance

/-- The answers of the native side during one run of `Thumbnail`. -/
structure MemoryCodec where
  /-- The pointer returned by `C.CString`. -/
  cstring : Ptr
  /-- The result of `epeg_memory_open`; `0` when no handle is reported. -/
  memory_open : Ptr
  /-- The source dimensions written by `epeg_size_get`. -/
  size_get : ℤ × ℤ
  /-- The status returned by `epeg_encode`. -/
  encode : ℤ
  /-- The contents of `res` when `epeg_encode` returns: the encoder writes through
  the references `&res.p`, `&res.size` registered by `epeg_memory_output_set`. -/
  output : Result
  /-- Native memory: the bytes stored from a pointer on. -/
  memory : Ptr → List UInt8

/-- The function `Thumbnail` of `epeg.go`: its outcome and the native calls made, in
order.  The outcome is `some` of the returned pair `([]byte, error)` (with `none` for
`nil`), or `none` when the run does not return because `res.Bytes()` panics; the
deferred calls run in that case too. -/
def Thumbnail (c : MemoryCodec) (b : List UInt8) (width height quality : ℤ) :
    Option (Option (List UInt8) × Option String) × List Call :=
  let p := c.cstring
  let defers₀ := [Deferred.free p]
  let img := c.memory_open
  let calls₁ := [Call.CString b.length p, Call.epeg_memory_open p (cint b.length) img]
  if img = 0 then
    (some (none, some "Epeg could not decode input image"), unwind defers₀ calls₁)
  else
    let defers₁ := Deferred.epeg_close img :: defers₀
    let cw := c.size_get.1
    let ch := c.size_get.2
    let wh := imageSize cw ch width height
    let calls₂ := calls₁ ++ [Call.epeg_size_get img,
      Call.epeg_decode_size_set img (cint wh.1) (cint wh.2),
      Call.epeg_quality_set img (cint quality)]
    let res₀ : Result := ⟨0, 0⟩
    let defers₂ := Deferred.Release res₀ :: defers₁
    let calls₃ := calls₂ ++ [Call.epeg_memory_output_set img, Call.epeg_encode img c.encode]
    let res := c.output
    if c.encode ≠ 0 then
      (some (none, some "Epeg encode error"), unwind defers₂ calls₃)
    else
      ((res.Bytes c.memory).map (fun bytes => (some bytes, none)),
        unwind defers₂ (calls₃ ++ [Call.GoBytes res.p res.size]))

/-- The constant `TransformNone` (`iota` = 0) of type `TransformType`, an `int`. -/
def TransformNone : ℤ := 0

/-- The constant `TransformFlipH` (`iota` = 1). -/
def TransformFlipH : ℤ := 1

/-- The constant `TransformFlipV` (`iota` = 2). -/
def TransformFlipV : ℤ := 2

/-- The constant `TransformTranspose` (`iota` = 3). -/
def TransformTranspose : ℤ := 3

/-- The constant `TransformTransverse` (`iota` = 4). -/
def TransformTransverse : ℤ := 4

/-- The constant `TransformRot90` (`iota` = 5). -/
def TransformRot90 : ℤ := 5

/-- The constant `TransformRot180` (`iota` = 6). -/
def TransformRot180 : ℤ := 6

/-- The constant `TransformRot270` (`iota` = 7). -/
def TransformRot270 : ℤ := 7

/-- The `switch` at the head of `Transform`: the native code assigned to `trans`,
or `none` on the `default` arm. -/
def transformCode (transform : ℤ) : Option EpegTransform :=
  if transform = TransformNone then some .NONE
  else if transform = TransformFlipH then some .FLIP_H
  else if transform = TransformFlipV then some .FLIP_V
  else if transform = TransformTranspose then some .TRANSPOSE
  else if transform = TransformTransverse then some .TRANSVERSE
  else if transform = TransformRot90 then some .ROT_90
  else if transform = TransformRot180 then some .ROT_180
  else if transform = TransformRot270 then some .ROT_270
  else none

/-- The answers of the native side during one run of `Transform`. -/
structure FileCodec where
  /-- The pointer returned by `C.CString(input)`. -/
  inputCString : Ptr
  /-- The pointer returned by `C.CString(output)`. -/
  outputCString : Ptr
  /-- The result of `epeg_file_open`; `0` when no handle is reported. -/
  file_open : Ptr
  /-- The status returned by `epeg_transform`. -/
  transform : ℤ
  /-- The contents of the 1024-byte buffer `buf` after `epeg_error`, as the verb
  `%s` prints them. -/
  error : String

/-- The function `Transform` of `epeg.go`: the returned `error` (`none` for `nil`)
and the native calls made, in order. -/
def Transform (c : FileCodec) (input output : String) (transform : ℤ) :
    Option String × List Call :=
  match transformCode transform with
  | none => (some "Epeg invalid transformation", [])
  | some transCode =>
    let inputCString := c.inputCString
    let outputCString := c.outputCString
    let defers₀ := [Deferred.free outputCString, Deferred.free inputCString]
    let img := c.file_open
    let calls₁ := [Call.CString input.utf8ByteSize inputCString,
      Call.CString output.utf8ByteSize outputCString, Call.epeg_file_open inputCString img]
    if img = 0 then
      (some ("Epeg could not open image " ++ input), unwind defers₀ calls₁)
    else
      let defers₁ := Deferred.epeg_close img :: defers₀
      let calls₂ := calls₁ ++ [Call.epeg_transform_set img transCode,
        Call.epeg_file_output_set img outputCString,
        Call.epeg_transform img c.transform]
      let code := c.transform
      if code ≠ 0 then
        (some ("Epeg transform error: error " ++ toString code ++ ": " ++ c.error),
          unwind defers₁ (calls₂ ++ [Call.epeg_error img]))
      else
        (none, unwind defers₁ calls₂)

/-! ## Observations on a sequence of native calls -/

/-- The call is an `epeg_close`. -/
def Call.isClose : Call → Bool
  | .epeg_close _ => true
  | _ => false

/-- The call is an open that reported a handle. -/
def Call.isOpened : Call → Bool
  | .epeg_memory_open _ _ ret => ret != 0
  | .epeg_file_open _ ret => ret != 0
  | _ => false

/-- The call is made on the handle `img`. -/
def Call.onHandle (img : Ptr) : Call → Bool
  | .epeg_close i => i == img
  | .epeg_size_get i => i == img
  | .epeg_decode_size_set i _ _ => i == img
  | .epeg_quality_set i _ => i == img
  | .epeg_memory_output_set i => i == img
  | .epeg_encode i _ => i == img
  | .epeg_transform_set i _ => i == img
  | .epeg_file_output_set i _ => i == img
  | .epeg_transform i _ => i == img
  | .epeg_error i => i == img
  | _ => false

/-- Every `epeg_close` in the sequence is made on `handle`, and no later call is made
on the handle it closed. -/
def closedLast (handle : Ptr) : List Call → Bool
  | [] => true
  | .epeg_close img :: rest =>
    img == handle && rest.all (fun x => !x.onHandle img) && closedLast handle rest
  | _ :: rest => closedLast handle rest

/-- A run of `Thumbnail` on a four-byte input in which the codec opens the handle
`2000`, reports a `200 × 100` source, encodes successfully and leaves a four-byte
buffer at the address `3000`. -/
def encodedRun : MemoryCodec where
  cstring := 1000
  memory_open := 2000
  size_get := (200, 100)
  encode := 0
  output := ⟨3000, 4⟩
  memory := fun p => if p = 3000 then [0xFF, 0xD8, 0xFF, 0xD9] else []

/-! ## Facts about rounding -/

/-- An integer rounds to itself. -/
theorem roundHalfEven_intCast (z : ℤ) : roundHalfEven (z : ℚ) = z := by
  simp [roundHalfEven]

/-- Rounding never goes below the floor. -/
theorem floor_le_roundHalfEven (t : ℚ) : ⌊t⌋ ≤ roundHalfEven t := by
  unfold roundHalfEven
  simp only
  split_ifs <;> omega

/-- Rounding moves a value up by at most one half. -/
theorem roundHalfEven_sub_le (t : ℚ) : (roundHalfEven t : ℚ) - t ≤ 1 / 2 := by
  have h1 := Int.floor_le t
  unfold roundHalfEven
  simp only
  split_ifs with h₁ h₂ h₃
  · linarith
  · push_cast; linarith
  · linarith
  · push_cast; linarith

/-- Rounding moves a value down by at most one half. -/
theorem sub_roundHalfEven_le (t : ℚ) : t - (roundHalfEven t : ℚ) ≤ 1 / 2 := by
  have h1 := Int.lt_floor_add_one t
  unfold roundHalfEven
  simp only
  split_ifs with h₁ h₂ h₃
  · linarith
  · push_cast; linarith
  · linarith
  · push_cast; linarith

/-- The rounded value lies within half a unit in the last place of the exact one. -/
theorem round64_abs_sub_le (q : ℚ) :
    |round64 q - q| ≤ (2 : ℚ) ^ (Int.log 2 |q| - 53) := by
  unfold round64
  split_ifs with h0
  · simp [h0]
    positivity
  · simp only
    set s : ℤ := 52 - Int.log 2 |q| with hs
    have hP : (0 : ℚ) < 2 ^ s := by positivity
    have e1 : (Int.log 2 |q| - 53 : ℤ) = -s - 1 := by omega
    have e2 : (2 : ℚ) ^ (Int.log 2 |q| - 53) = (1 / 2) / 2 ^ s := by
      rw [e1, zpow_sub₀ (by norm_num), zpow_neg, zpow_one]
      field_simp
      ring
    have e3 : (roundHalfEven (q * 2 ^ s) : ℚ) / 2 ^ s - q
        = ((roundHalfEven (q * 2 ^ s) : ℚ) - q * 2 ^ s) / 2 ^ s := by
      field_simp
      ring
    rw [e2, e3, abs_div, abs_of_pos hP]
    apply div_le_div_of_nonneg_right _ hP.le
    rw [abs_le]
    constructor
    · linarith [sub_roundHalfEven_le (q * 2 ^ s)]
    · exact roundHalfEven_sub_le (q * 2 ^ s)

/-- The binary exponent of a positive rational bounds it from below. -/
theorem two_zpow_log_le {x : ℚ} (hx : 0 < x) : (2 : ℚ) ^ Int.log 2 x ≤ x := by
  have h := Int.zpow_log_le_self (b := 2) (r := x) (by norm_num) hx
  simpa using h

/-- A positive rational below `2 ^ n` has binary exponent below `n`. -/
theorem log_lt_of_lt_two_pow {x : ℚ} (hx : 0 < x) {n : ℕ} (h : x < 2 ^ n) :
    Int.log 2 x < n := by
  have := (Int.lt_zpow_iff_log_lt (b := 2) (R := ℚ) (by norm_num) (x := (n : ℤ)) hx).1
    (by simpa using h)
  exact this

/-- Below `2 ^ 53` the scaling exponent is a natural number. -/
theorem exists_scale {x : ℚ} (hx : 0 < x) (h : x < 2 ^ 53) :
    ∃ k : ℕ, (52 : ℤ) - Int.log 2 |x| = k ∧ (2 : ℚ) ^ 52 ≤ x * 2 ^ k := by
  have hl := log_lt_of_lt_two_pow hx h
  have hlo := two_zpow_log_le hx
  rw [abs_of_pos hx]
  obtain ⟨k, hk⟩ := Int.eq_ofNat_of_zero_le (show (0 : ℤ) ≤ 52 - Int.log 2 x by omega)
  refine ⟨k, hk, ?_⟩
  have he : Int.log 2 x = 52 - (k : ℤ) := by omega
  rw [he, zpow_sub₀ (by norm_num), zpow_natCast] at hlo
  have hk0 : (0 : ℚ) < 2 ^ k := by positivity
  rw [div_le_iff₀ hk0] at hlo
  have h52 : (2 : ℚ) ^ (52 : ℤ) = 2 ^ 52 := by norm_num
  rw [h52] at hlo
  exact hlo

/-- Unfolding of `round64` once the scaling exponent is known to be natural. -/
theorem round64_eq_of_scale {x : ℚ} (hx : 0 < x) {k : ℕ}
    (hk : (52 : ℤ) - Int.log 2 |x| = k) :
    round64 x = (roundHalfEven (x * 2 ^ k) : ℚ) / 2 ^ k := by
  unfold round64
  rw [if_neg hx.ne']
  simp only [hk, zpow_natCast]

/-- Natural numbers below `2 ^ 53` are binary64 values. -/
theorem round64_natCast {n : ℕ} (h : n < 2 ^ 53) : round64 (n : ℚ) = n := by
  rcases Nat.eq_zero_or_pos n with h0 | h0
  · simp [h0, round64]
  have hx : (0 : ℚ) < n := by exact_mod_cast h0
  have hlt : (n : ℚ) < 2 ^ 53 := by exact_mod_cast h
  obtain ⟨k, hk, -⟩ := exists_scale hx hlt
  rw [round64_eq_of_scale hx hk]
  have : (n : ℚ) * 2 ^ k = ((n * 2 ^ k : ℤ) : ℚ) := by push_cast; ring
  rw [this, roundHalfEven_intCast]
  push_cast
  field_simp

/-- The heart of the scale computation: for `p, c < 2 ^ 53` the correctly rounded
binary64 quotient has the same integer part as the exact quotient. -/
theorem floor_round64_div {p c : ℕ} (hp : 0 < p) (hc : 0 < c) (hp53 : p < 2 ^ 53) :
    0 < round64 ((p : ℚ) / c) ∧ ⌊round64 ((p : ℚ) / c)⌋ = ((p / c : ℕ) : ℤ) := by
  have hpq : (0 : ℚ) < p := by exact_mod_cast hp
  have hcq : (0 : ℚ) < c := by exact_mod_cast hc
  have hx : (0 : ℚ) < (p : ℚ) / c := div_pos hpq hcq
  have hc1 : (1 : ℚ) ≤ c := by exact_mod_cast hc
  have hxp : (p : ℚ) / c ≤ p := div_le_self hpq.le hc1
  have hx53 : (p : ℚ) / c < 2 ^ 53 := lt_of_le_of_lt hxp (by exact_mod_cast hp53)
  obtain ⟨k, hk, hlo⟩ := exists_scale hx hx53
  rw [round64_eq_of_scale hx hk]
  set P : ℚ := 2 ^ k with hP
  have hP0 : 0 < P := by positivity
  set R : ℤ := roundHalfEven ((p : ℚ) / c * P) with hR
  -- the exact quotient and its integer part
  have hn1 : ((p / c : ℕ) : ℚ) ≤ (p : ℚ) / c := Nat.cast_div_le
  have hn2 : (p : ℚ) / c + 1 / c ≤ ((p / c : ℕ) : ℚ) + 1 := by
    have h : p + 1 ≤ (p / c + 1) * c := by
      have := Nat.lt_mul_div_succ p hc
      rw [Nat.mul_comm] at this
      exact this
    have h' : ((p : ℚ) + 1) ≤ (((p / c : ℕ) : ℚ) + 1) * c := by exact_mod_cast h
    rw [← add_div, div_le_iff₀ hcq]
    exact h'
  -- lower bound
  have hlow : (((p / c : ℕ) : ℤ) * 2 ^ k : ℤ) ≤ R := by
    refine le_trans ?_ (floor_le_roundHalfEven _)
    rw [Int.le_floor]
    push_cast
    exact mul_le_mul_of_nonneg_right hn1 hP0.le
  -- upper bound
  have hup : R < (((p / c : ℕ) : ℤ) + 1) * 2 ^ k := by
    by_contra hcon
    push_neg at hcon
    have hcon' : ((((p / c : ℕ) : ℚ) + 1) * P) ≤ (R : ℚ) := by
      have := (Int.cast_le (R := ℚ)).2 hcon
      push_cast at this
      exact this
    have hr := roundHalfEven_sub_le ((p : ℚ) / c * P)
    rw [← hR] at hr
    -- P / c ≤ 1 / 2
    have h1 : P * (1 / c) ≤ 1 / 2 := by nlinarith
    have h2 : 2 * P ≤ c := by
      rw [mul_one_div, div_le_iff₀ hcq] at h1
      linarith
    -- but c * 2 ^ 52 ≤ p * P < 2 ^ 53 * P
    have h3 : (2 : ℚ) ^ 52 * c ≤ p * P := by
      have := mul_le_mul_of_nonneg_right hlo hcq.le
      have e : (p : ℚ) / c * P * c = p * P := by field_simp
      rw [e] at this
      exact this
    have h4 : (p : ℚ) * P < 2 ^ 53 * P :=
      mul_lt_mul_of_pos_right (by exact_mod_cast hp53) hP0
    nlinarith
  have hP1 : (1 : ℚ) ≤ P := one_le_pow₀ (by norm_num)
  constructor
  · apply div_pos _ hP0
    have : (0 : ℤ) < R := by
      have h0 : (0 : ℤ) < ⌊(p : ℚ) / c * P⌋ := by
        rw [Int.floor_pos]
        have : (2 : ℚ) ^ 52 ≤ (p : ℚ) / c * P := hlo
        linarith [show (1 : ℚ) ≤ 2 ^ 52 by norm_num]
      exact lt_of_lt_of_le h0 (floor_le_roundHalfEven _)
    exact_mod_cast this
  · rw [Int.floor_eq_iff]
    have hlow' : ((p / c : ℕ) : ℚ) * P ≤ (R : ℚ) := by
      have := (Int.cast_le (R := ℚ)).2 hlow
      push_cast at this
      exact this
    have hup' : (R : ℚ) < (((p / c : ℕ) : ℚ) + 1) * P := by
      have := (Int.cast_lt (R := ℚ)).2 hup
      push_cast at this
      exact this
    constructor
    · rw [le_div_iff₀ hP0]
      exact_mod_cast hlow'
    · rw [div_lt_iff₀ hP0]
      exact_mod_cast hup'

/-- Evaluation of `round64` from a bracketing of the argument by powers of two. -/
theorem round64_eval {x : ℚ} {e m : ℤ} (hx : 0 < x) (h1 : (2 : ℚ) ^ e ≤ x)
    (h2 : x < (2 : ℚ) ^ (e + 1)) (hm : roundHalfEven (x * 2 ^ (52 - e)) = m) :
    round64 x = (m : ℚ) / 2 ^ (52 - e) := by
  have hlog : Int.log 2 |x| = e := by
    rw [abs_of_pos hx]
    have a1 : e ≤ Int.log 2 x :=
      (Int.zpow_le_iff_le_log (b := 2) (R := ℚ) (by norm_num) hx).1 (by simpa using h1)
    have a2 : Int.log 2 x < e + 1 :=
      (Int.lt_zpow_iff_log_lt (b := 2) (R := ℚ) (by norm_num) hx).1 (by simpa using h2)
    omega
  unfold round64
  rw [if_neg hx.ne']
  simp only [hlog, hm]

/-- A value strictly within one half of an integer rounds to it. -/
theorem roundHalfEven_near {t : ℚ} {m : ℤ} (h1 : (m : ℚ) - 1 / 2 < t)
    (h2 : t < (m : ℚ) + 1 / 2) : roundHalfEven t = m := by
  have hf1 := Int.floor_le t
  have hf2 := Int.lt_floor_add_one t
  have hlt : (⌊t⌋ : ℚ) < (m : ℚ) + 1 := by linarith
  have hlt' : ⌊t⌋ < m + 1 := by exact_mod_cast hlt
  have hgt' : m - 2 < ⌊t⌋ := by
    have : ((m - 2 : ℤ) : ℚ) < ((⌊t⌋ : ℤ) : ℚ) := by push_cast; linarith
    exact_mod_cast this
  unfold roundHalfEven
  simp only
  rcases (show ⌊t⌋ = m ∨ ⌊t⌋ = m - 1 by omega) with hc | hc
  · rw [hc]
    rw [if_pos (by linarith)]
  · have hc' : (⌊t⌋ : ℚ) = (m : ℚ) - 1 := by rw [hc]; push_cast; ring
    rw [if_neg (by rw [hc']; linarith), if_pos (by rw [hc']; linarith), hc]
    ring

/-- A value halfway between two integers rounds to the even one. -/
theorem roundHalfEven_tie {t : ℚ} {m : ℤ} (h : t = (m : ℚ) + 1 / 2) :
    roundHalfEven t = if m % 2 = 0 then m else m + 1 := by
  have hfl : ⌊t⌋ = m := by
    rw [Int.floor_eq_iff]
    constructor <;> linarith
  unfold roundHalfEven
  simp only
  rw [hfl, if_neg (by linarith), if_neg (by linarith)]

/-! ## The scale computation on exactly representable operands -/

/-- Conversion of an integer in `[0, 2 ^ 53)` to `float64` is exact. -/
theorem float64_of_lt {a : ℤ} (h0 : 0 ≤ a) (h : a < 2 ^ 53) : float64 a = a := by
  obtain ⟨n, rfl⟩ := Int.eq_ofNat_of_zero_le h0
  have hn : n < 2 ^ 53 := by exact_mod_cast h
  simpa [float64] using round64_natCast hn

/-- With `a * b < 2 ^ 53` and `c < 2 ^ 53` every conversion and the product are
exact, and the truncated binary64 quotient is the floor of the exact quotient. -/
theorem scale_exact_small {a b c : ℤ} (ha : 0 < a) (hb : 0 < b) (hc : 0 < c)
    (hab : a * b < 2 ^ 53) (hc53 : c < 2 ^ 53) :
    toInt (fdiv (fmul (float64 a) (float64 b)) (float64 c)) = ⌊((a : ℚ) * b) / c⌋ := by
  have ha53 : a < 2 ^ 53 := by nlinarith
  have hb53 : b < 2 ^ 53 := by nlinarith
  rw [float64_of_lt ha.le ha53, float64_of_lt hb.le hb53, float64_of_lt hc.le hc53]
  obtain ⟨p, hp⟩ := Int.eq_ofNat_of_zero_le (show 0 ≤ a * b by positivity)
  obtain ⟨n, rfl⟩ := Int.eq_ofNat_of_zero_le hc.le
  have hp0 : 0 < p := by
    have : (0 : ℤ) < (p : ℤ) := by rw [← hp]; positivity
    exact_mod_cast this
  have hn0 : 0 < n := by exact_mod_cast hc
  have hp53 : p < 2 ^ 53 := by
    have : (p : ℤ) < 2 ^ 53 := by rw [← hp]; exact hab
    exact_mod_cast this
  have hpq : (a : ℚ) * b = (p : ℚ) := by
    have := congrArg (fun z : ℤ => (z : ℚ)) hp
    simpa using this
  have hmul : fmul (a : ℚ) (b : ℚ) = (p : ℚ) := by
    unfold fmul
    rw [hpq]
    exact round64_natCast hp53
  have hn' : ((n : ℤ) : ℚ) = (n : ℚ) := by simp
  rw [hmul, hpq, hn']
  have hnq : (n : ℚ) ≠ 0 := by exact_mod_cast hn0.ne'
  unfold fdiv
  rw [if_neg hnq]
  obtain ⟨hpos, hfl⟩ := floor_round64_div (c := n) hp0 hn0 hp53
  have hfl2 : ⌊(p : ℚ) / n⌋ = ((p / n : ℕ) : ℤ) := by
    rw [Rat.floor_natCast_div_natCast]
    exact (Int.natCast_div p n).symm
  have hle : p / n ≤ p := Nat.div_le_self p n
  unfold toInt
  simp only [if_pos hpos.le, hfl, hfl2]
  rw [if_pos]
  constructor
  · unfold minInt64
    have : (0 : ℤ) ≤ ((p / n : ℕ) : ℤ) := Int.natCast_nonneg _
    linarith
  · have : ((p / n : ℕ) : ℤ) < 2 ^ 53 := by exact_mod_cast lt_of_le_of_lt hle hp53
    linarith [show (2 : ℤ) ^ 53 < 2 ^ 63 by norm_num]

/-- A positive value never rounds below the power of two under it. -/
theorem two_zpow_log_le_round64 {x : ℚ} (hx : 0 < x) :
    (2 : ℚ) ^ Int.log 2 x ≤ round64 x := by
  have hlo := two_zpow_log_le hx
  unfold round64
  rw [if_neg hx.ne', abs_of_pos hx]
  simp only
  have hP : (0 : ℚ) < 2 ^ (52 - Int.log 2 x) := by positivity
  rw [le_div_iff₀ hP]
  have h52 : (2 : ℚ) ^ Int.log 2 x * 2 ^ (52 - Int.log 2 x) = ((2 ^ 52 : ℤ) : ℚ) := by
    rw [← zpow_add₀ (by norm_num)]
    have e : Int.log 2 x + (52 - Int.log 2 x) = 52 := by ring
    rw [e]
    norm_num
  rw [h52]
  have ht : ((2 ^ 52 : ℤ) : ℚ) ≤ x * 2 ^ (52 - Int.log 2 x) := by
    rw [← h52]
    exact mul_le_mul_of_nonneg_right hlo hP.le
  have hz : (2 ^ 52 : ℤ) ≤ roundHalfEven (x * 2 ^ (52 - Int.log 2 x)) :=
    le_trans (Int.le_floor.2 ht) (floor_le_roundHalfEven _)
  exact_mod_cast hz

/-- A divisor of at least `2 ^ 53` is converted to a binary64 value of at least
`2 ^ 53`, so a dividend below `2 ^ 53` gives a binary64 quotient in `(0, 1)`, which
truncates to `0`. -/
theorem scale_big_divisor {p : ℕ} {c : ℤ} (hp0 : 0 < p) (hp53 : p < 2 ^ 53)
    (hc : 2 ^ 53 ≤ c) : toInt (fdiv (p : ℚ) (float64 c)) = 0 := by
  have hcq : (2 : ℚ) ^ 53 ≤ (c : ℚ) := by exact_mod_cast hc
  have hc0 : (0 : ℚ) < (c : ℚ) := lt_of_lt_of_le (by norm_num) hcq
  have hlog : (53 : ℤ) ≤ Int.log 2 (c : ℚ) :=
    (Int.zpow_le_iff_le_log (b := 2) (R := ℚ) (by norm_num) hc0).1 (by
      rw [show (((2 : ℕ) : ℚ)) ^ (53 : ℤ) = (2 : ℚ) ^ 53 by norm_num]
      exact hcq)
  have hC : (2 : ℚ) ^ 53 ≤ float64 c := by
    unfold float64
    refine le_trans ?_ (two_zpow_log_le_round64 hc0)
    have h := zpow_le_zpow_right₀ (show (1 : ℚ) ≤ 2 by norm_num) hlog
    rw [show (2 : ℚ) ^ (53 : ℤ) = 2 ^ 53 by norm_num] at h
    exact h
  have hC0 : (0 : ℚ) < float64 c := lt_of_lt_of_le (by norm_num) hC
  have hpq : (0 : ℚ) < p := by exact_mod_cast hp0
  have hp' : (p : ℚ) ≤ 2 ^ 53 - 1 := by
    have : (p : ℤ) ≤ 2 ^ 53 - 1 := by omega
    exact_mod_cast this
  have hx0 : (0 : ℚ) < (p : ℚ) / float64 c := div_pos hpq hC0
  have hx1 : (p : ℚ) / float64 c ≤ 1 - 1 / 2 ^ 53 := by
    rw [div_le_iff₀ hC0]
    have h1 : (1 - 1 / 2 ^ 53 : ℚ) * 2 ^ 53 ≤ (1 - 1 / 2 ^ 53) * float64 c :=
      mul_le_mul_of_nonneg_left hC (by norm_num)
    have h2 : (1 - 1 / 2 ^ 53 : ℚ) * 2 ^ 53 = 2 ^ 53 - 1 := by norm_num
    linarith
  have hxlog : Int.log 2 ((p : ℚ) / float64 c) < 0 :=
    (Int.lt_zpow_iff_log_lt (b := 2) (R := ℚ) (by norm_num) hx0).1
      (by simpa using lt_of_le_of_lt hx1 (by norm_num))
  have herr := round64_abs_sub_le ((p : ℚ) / float64 c)
  rw [abs_of_pos hx0] at herr
  have hpow : (2 : ℚ) ^ (Int.log 2 ((p : ℚ) / float64 c) - 53) ≤ 1 / 2 ^ 54 := by
    have := zpow_le_zpow_right₀ (show (1 : ℚ) ≤ 2 by norm_num)
      (show Int.log 2 ((p : ℚ) / float64 c) - 53 ≤ -54 by omega)
    refine le_trans this ?_
    norm_num
  have hup : round64 ((p : ℚ) / float64 c) < 1 := by
    have := (abs_le.1 herr).2
    have h3 : (1 - 1 / 2 ^ 53 : ℚ) + 1 / 2 ^ 54 < 1 := by norm_num
    linarith
  have hlow : 0 < round64 ((p : ℚ) / float64 c) :=
    lt_of_lt_of_le (by positivity) (two_zpow_log_le_round64 hx0)
  have hfl : ⌊round64 ((p : ℚ) / float64 c)⌋ = 0 := by
    rw [Int.floor_eq_iff]
    constructor
    · simpa using hlow.le
    · simpa using hup
  unfold fdiv
  rw [if_neg hC0.ne']
  unfold toInt minInt64
  simp only [if_pos hlow.le, hfl]
  norm_num

/-- With `a * b < 2 ^ 53` the truncated binary64 quotient by any positive `c` is the
floor of the exact quotient: for `c < 2 ^ 53` every step is exact, and for larger `c`
both sides are `0`. -/
theorem scale_exact {a b c : ℤ} (ha : 0 < a) (hb : 0 < b) (hc : 0 < c)
    (hab : a * b < 2 ^ 53) :
    toInt (fdiv (fmul (float64 a) (float64 b)) (float64 c)) = ⌊((a : ℚ) * b) / c⌋ := by
  by_cases hc53 : c < 2 ^ 53
  · exact scale_exact_small ha hb hc hab hc53
  · have hcge : (2 : ℤ) ^ 53 ≤ c := not_lt.1 hc53
    have ha53 : a < 2 ^ 53 := by nlinarith
    have hb53 : b < 2 ^ 53 := by nlinarith
    rw [float64_of_lt ha.le ha53, float64_of_lt hb.le hb53]
    obtain ⟨p, hp⟩ := Int.eq_ofNat_of_zero_le (show 0 ≤ a * b by positivity)
    have hp0 : 0 < p := by
      have : (0 : ℤ) < (p : ℤ) := by rw [← hp]; positivity
      exact_mod_cast this
    have hp53 : p < 2 ^ 53 := by
      have : (p : ℤ) < 2 ^ 53 := by rw [← hp]; exact hab
      exact_mod_cast this
    have hpq : (a : ℚ) * b = (p : ℚ) := by
      have := congrArg (fun z : ℤ => (z : ℚ)) hp
      simpa using this
    have hmul : fmul (a : ℚ) (b : ℚ) = (p : ℚ) := by
      unfold fmul
      rw [hpq]
      exact round64_natCast hp53
    rw [hmul, scale_big_divisor hp0 hp53 hcge, hpq]
    symm
    rw [Int.floor_eq_iff]
    have hcq : (2 : ℚ) ^ 53 ≤ (c : ℚ) := by exact_mod_cast hcge
    have hc0 : (0 : ℚ) < (c : ℚ) := lt_of_lt_of_le (by norm_num) hcq
    have hpq0 : (0 : ℚ) < p := by exact_mod_cast hp0
    have hplt : (p : ℚ) < 2 ^ 53 := by exact_mod_cast hp53
    constructor
    · simpa using (div_pos hpq0 hc0).le
    · rw [div_lt_iff₀ hc0]
      simp only [Int.cast_zero, zero_add, one_mul]
      linarith

/-- Closed form of `imageSize` on operands whose products stay below `2 ^ 53`. -/
theorem imageSize_exact {sw sh mw mh : ℤ} (hsw : 0 < sw) (hsh : 0 < sh) (hmw : 0 < mw)
    (hmh : 0 < mh) (hw : mw * sw < 2 ^ 53) (hh : mh * sh < 2 ^ 53) :
    imageSize sw sh mw mh =
      if sw > sh then (mw, ⌊((mh : ℚ) * sh) / sw⌋) else (⌊((mw : ℚ) * sw) / sh⌋, mh) := by
  unfold imageSize
  split_ifs with h
  · rw [scale_exact hmh hsh hsw hh]
  · rw [scale_exact hmw hsw hsh hw]

/-- Inside the exact range the computed size never exceeds the requested box. -/
theorem imageSize_le_box {sw sh mw mh : ℤ} (hsw : 0 < sw) (hsh : 0 < sh) (hmw : 0 < mw)
    (hmh : 0 < mh) (hw : mw * sw < 2 ^ 53) (hh : mh * sh < 2 ^ 53) :
    (imageSize sw sh mw mh).1 ≤ mw ∧ (imageSize sw sh mw mh).2 ≤ mh := by
  have hswq : (0 : ℚ) < sw := by exact_mod_cast hsw
  have hshq : (0 : ℚ) < sh := by exact_mod_cast hsh
  have hmwq : (0 : ℚ) < mw := by exact_mod_cast hmw
  have hmhq : (0 : ℚ) < mh := by exact_mod_cast hmh
  rw [imageSize_exact hsw hsh hmw hmh hw hh]
  split_ifs with h
  · refine ⟨le_refl _, ?_⟩
    have hlt : (sh : ℚ) ≤ sw := by exact_mod_cast h.le
    have : ((mh : ℚ) * sh) / sw ≤ mh := by
      rw [div_le_iff₀ hswq]
      exact mul_le_mul_of_nonneg_left hlt hmhq.le
    have h2 : ⌊((mh : ℚ) * sh) / sw⌋ ≤ ⌊(mh : ℚ)⌋ := Int.floor_mono this
    simpa using h2
  · refine ⟨?_, le_refl _⟩
    have hle : (sw : ℚ) ≤ sh := by exact_mod_cast not_lt.1 h
    have : ((mw : ℚ) * sw) / sh ≤ mw := by
      rw [div_le_iff₀ hshq]
      exact mul_le_mul_of_nonneg_left hle hmwq.le
    have h2 : ⌊((mw : ℚ) * sw) / sh⌋ ≤ ⌊(mw : ℚ)⌋ := Int.floor_mono this
    simpa using h2

/-! ## Rounding beyond `2 ^ 53` -/

/-- The conversion `float64(2^53 + 1)` rounds down to `2^53` (tie, even significand). -/
theorem float64_two53_add_one : float64 9007199254740993 = 9007199254740992 := by
  unfold float64
  rw [round64_eval (e := 53) (m := 4503599627370496) (by norm_num) (by norm_num)
    (by norm_num)]
  · norm_num
  · rw [roundHalfEven_tie (m := 4503599627370496) (by norm_num)]
    norm_num

/-- The conversion `float64(2^53 + 3)` rounds up to `2^53 + 4` (tie, even significand). -/
theorem float64_two53_add_three : float64 9007199254740995 = 9007199254740996 := by
  unfold float64
  rw [round64_eval (e := 53) (m := 4503599627370498) (by norm_num) (by norm_num)
    (by norm_num)]
  · norm_num
  · rw [roundHalfEven_tie (m := 4503599627370497) (by norm_num)]
    norm_num

/-- The value `2^53` is a binary64 value. -/
theorem round64_two53 : round64 9007199254740992 = 9007199254740992 := by
  rw [round64_eval (e := 53) (m := 4503599627370496) (by norm_num) (by norm_num)
    (by norm_num)]
  · norm_num
  · exact roundHalfEven_near (by norm_num) (by norm_num)

/-- The value `2^53 + 4` is a binary64 value. -/
theorem round64_two53_add_four : round64 9007199254740996 = 9007199254740996 := by
  rw [round64_eval (e := 53) (m := 4503599627370498) (by norm_num) (by norm_num)
    (by norm_num)]
  · norm_num
  · exact roundHalfEven_near (by norm_num) (by norm_num)

/-- The binary64 quotient `2^53 / 3`. -/
theorem round64_two53_div_three :
    round64 (9007199254740992 / 3) = 6004799503160661 / 2 := by
  rw [round64_eval (e := 51) (m := 6004799503160661) (by norm_num) (by norm_num)
    (by norm_num)]
  · norm_num
  · exact roundHalfEven_near (by norm_num) (by norm_num)

/-- The conversion `float64(1)`. -/
theorem float64_one : float64 1 = 1 := by
  simpa using float64_of_lt (a := 1) (by norm_num) (by norm_num)

/-- The conversion `float64(3)`. -/
theorem float64_three : float64 3 = 3 := by
  simpa using float64_of_lt (a := 3) (by norm_num) (by norm_num)

/-- The scaled value `int(float64(2^53+1) * float64(1) / float64(3))`. -/
theorem scale_two53_add_one_third :
    toInt (fdiv (fmul (float64 9007199254740993) (float64 1)) (float64 3))
      = 3002399751580330 := by
  rw [float64_two53_add_one, float64_one, float64_three]
  unfold fmul fdiv
  rw [mul_one, round64_two53, if_neg (by norm_num), round64_two53_div_three]
  unfold toInt minInt64
  have hfl : ⌊(6004799503160661 / 2 : ℚ)⌋ = 3002399751580330 := by
    rw [Int.floor_eq_iff]
    constructor <;> norm_num
  simp only [hfl]
  norm_num

/-- The scaled value `int(float64(m) * float64(1) / float64(1))` for `m = 2^53+1`. -/
theorem scale_two53_add_one_unit :
    toInt (fdiv (fmul (float64 9007199254740993) (float64 1)) (float64 1))
      = 9007199254740992 := by
  rw [float64_two53_add_one, float64_one]
  unfold fmul fdiv
  rw [mul_one, round64_two53, if_neg (by norm_num), div_one, round64_two53]
  unfold toInt minInt64
  have hfl : ⌊(9007199254740992 : ℚ)⌋ = 9007199254740992 := by
    rw [Int.floor_eq_iff]
    constructor <;> norm_num
  simp only [hfl]
  norm_num

/-- The scaled value `int(float64(m) * float64(1) / float64(1))` for `m = 2^53+3`. -/
theorem scale_two53_add_three_unit :
    toInt (fdiv (fmul (float64 9007199254740995) (float64 1)) (float64 1))
      = 9007199254740996 := by
  rw [float64_two53_add_three, float64_one]
  unfold fmul fdiv
  rw [mul_one, round64_two53_add_four, if_neg (by norm_num), div_one,
    round64_two53_add_four]
  unfold toInt minInt64
  have hfl : ⌊(9007199254740996 : ℚ)⌋ = 9007199254740996 := by
    rw [Int.floor_eq_iff]
    constructor <;> norm_num
  simp only [hfl]
  norm_num

/-- The conversion `float64(2^53 - 1)`. -/
theorem float64_two53_sub_one : float64 9007199254740991 = 9007199254740991 := by
  simpa using float64_of_lt (a := 9007199254740991) (by norm_num) (by norm_num)

/-- The conversion `float64(2^53 - 2)`. -/
theorem float64_two53_sub_two : float64 9007199254740990 = 9007199254740990 := by
  simpa using float64_of_lt (a := 9007199254740990) (by norm_num) (by norm_num)

/-- The scaled value `int(float64(2^53+3) * float64(2^53-2) / float64(2^53-1))`: the
bound rounds up to `2^53 + 4`, the product rounds up to `2^106 + 2^54`, and the
quotient rounds up to `2^53 + 4`. -/
theorem scale_two53_add_three_near_square :
    toInt (fdiv (fmul (float64 9007199254740995) (float64 9007199254740990))
        (float64 9007199254740991))
      = 9007199254740996 := by
  rw [float64_two53_add_three, float64_two53_sub_two, float64_two53_sub_one]
  have hmul : fmul 9007199254740996 9007199254740990
      = 81129638414606699710187514626048 := by
    unfold fmul
    rw [round64_eval (e := 106) (m := 4503599627370497) (by norm_num) (by norm_num)
      (by norm_num)]
    · norm_num
    · exact roundHalfEven_near (by norm_num) (by norm_num)
  have hdiv : round64 (81129638414606699710187514626048 / 9007199254740991)
      = 9007199254740996 := by
    rw [round64_eval (e := 53) (m := 4503599627370498) (by norm_num) (by norm_num)
      (by norm_num)]
    · norm_num
    · exact roundHalfEven_near (by norm_num) (by norm_num)
  rw [hmul]
  unfold fdiv
  rw [if_neg (by norm_num), hdiv]
  unfold toInt minInt64
  have hfl : ⌊(9007199254740996 : ℚ)⌋ = 9007199254740996 := by
    rw [Int.floor_eq_iff]
    constructor <;> norm_num
  simp only [hfl]
  norm_num

/-! ## Claims about `imageSize` -/

/-- C1 (amended): for positive dimensions with `sourceWidth ≥ sourceHeight` whose
products `maxWidth * sourceWidth` and `maxHeight * sourceHeight` stay below `2 ^ 53`,
`imageSize` returns `maxWidth` and the floor of the exact quotient
`maxHeight * sourceHeight / sourceWidth`; the square case is included. -/
theorem imageSize_landscape (sw sh mw mh : ℤ) (hsw : 0 < sw) (hsh : 0 < sh)
    (hmw : 0 < mw) (hmh : 0 < mh) (hge : sh ≤ sw) (hw : mw * sw < 2 ^ 53)
    (hh : mh * sh < 2 ^ 53) :
    imageSize sw sh mw mh = (mw, ⌊((mh : ℚ) * sh) / sw⌋) := by
  rw [imageSize_exact hsw hsh hmw hmh hw hh]
  split_ifs with h
  · rfl
  · have heq : sw = sh := le_antisymm (not_lt.1 h) hge
    subst heq
    have hq : (sw : ℚ) ≠ 0 := by exact_mod_cast hsw.ne'
    rw [mul_div_assoc, div_self hq, mul_one, mul_div_assoc, div_self hq, mul_one]
    simp

/-- Witness for C1: the theorem applied at the two sizes the claim singles out,
`imageSize 100 100 50 20 = (50, 20)` (a square source) and
`imageSize 200 100 80 80 = (80, 40)`. -/
theorem imageSize_landscape_witness :
    imageSize 100 100 50 20 = (50, 20) ∧ imageSize 200 100 80 80 = (80, 40) := by
  have h20 : ⌊(((20 : ℤ) : ℚ) * ((100 : ℤ) : ℚ)) / ((100 : ℤ) : ℚ)⌋ = 20 := by
    rw [Int.floor_eq_iff]
    constructor <;> norm_num
  have h40 : ⌊(((80 : ℤ) : ℚ) * ((100 : ℤ) : ℚ)) / ((200 : ℤ) : ℚ)⌋ = 40 := by
    rw [Int.floor_eq_iff]
    constructor <;> norm_num
  constructor
  · rw [imageSize_landscape 100 100 50 20 (by norm_num) (by norm_num) (by norm_num)
      (by norm_num) (by norm_num) (by norm_num) (by norm_num), h20]
  · rw [imageSize_landscape 200 100 80 80 (by norm_num) (by norm_num) (by norm_num)
      (by norm_num) (by norm_num) (by norm_num) (by norm_num), h40]

/-- C1 as stated fails beyond the exact range of binary64: with
`maxHeight = 2 ^ 53 + 1` the landscape height is one less than the floor of the exact
quotient, and with `maxWidth = 2 ^ 53 + 1` a square source does not get `maxWidth`. -/
theorem imageSize_landscape_counterexample :
    imageSize 3 1 1 9007199254740993 = (1, 3002399751580330)
      ∧ ⌊(((9007199254740993 : ℤ) : ℚ) * ((1 : ℤ) : ℚ)) / ((3 : ℤ) : ℚ)⌋ = 3002399751580331
      ∧ imageSize 3 1 1 9007199254740993
          ≠ (1, ⌊(((9007199254740993 : ℤ) : ℚ) * ((1 : ℤ) : ℚ)) / ((3 : ℤ) : ℚ)⌋)
      ∧ imageSize 1 1 9007199254740993 1 = (9007199254740992, 1) := by
  have h1 : imageSize 3 1 1 9007199254740993 = (1, 3002399751580330) := by
    unfold imageSize
    rw [if_pos (by norm_num), scale_two53_add_one_third]
  have h2 : ⌊(((9007199254740993 : ℤ) : ℚ) * ((1 : ℤ) : ℚ)) / ((3 : ℤ) : ℚ)⌋
      = 3002399751580331 := by
    rw [Int.floor_eq_iff]
    constructor <;> norm_num
  refine ⟨h1, h2, ?_, ?_⟩
  · rw [h1, h2]
    decide
  · unfold imageSize
    rw [if_neg (by norm_num), scale_two53_add_one_unit]

/-- C2 (amended): for positive dimensions with `sourceWidth < sourceHeight` whose
product `maxWidth * sourceWidth` stays below `2 ^ 53`, `imageSize` returns `maxHeight`
and the floor of the exact quotient `maxWidth * sourceWidth / sourceHeight`. -/
theorem imageSize_portrait (sw sh mw mh : ℤ) (hsw : 0 < sw) (hsh : 0 < sh)
    (hmw : 0 < mw) (_hmh : 0 < mh) (hlt : sw < sh) (hw : mw * sw < 2 ^ 53) :
    imageSize sw sh mw mh = (⌊((mw : ℚ) * sw) / sh⌋, mh) := by
  unfold imageSize
  rw [if_neg (not_lt.2 hlt.le), scale_exact hmw hsw hsh hw]

/-- Witness for C2: the theorem applied at `imageSize 480 640 320 240 = (240, 240)`
and, with a height bound above `2 ^ 53`, at
`imageSize 100 200 80 (2 ^ 53 + 1) = (40, 2 ^ 53 + 1)`. -/
theorem imageSize_portrait_witness :
    imageSize 480 640 320 240 = (240, 240)
      ∧ imageSize 100 200 80 9007199254740993 = (40, 9007199254740993) := by
  have h240 : ⌊(((320 : ℤ) : ℚ) * ((480 : ℤ) : ℚ)) / ((640 : ℤ) : ℚ)⌋ = 240 := by
    rw [Int.floor_eq_iff]
    constructor <;> norm_num
  have h40 : ⌊(((80 : ℤ) : ℚ) * ((100 : ℤ) : ℚ)) / ((200 : ℤ) : ℚ)⌋ = 40 := by
    rw [Int.floor_eq_iff]
    constructor <;> norm_num
  constructor
  · rw [imageSize_portrait 480 640 320 240 (by norm_num) (by norm_num) (by norm_num)
      (by norm_num) (by norm_num) (by norm_num), h240]
  · rw [imageSize_portrait 100 200 80 9007199254740993 (by norm_num) (by norm_num)
      (by norm_num) (by norm_num) (by norm_num) (by norm_num), h40]

/-- C2 as stated fails beyond the exact range of binary64: with
`maxWidth = 2 ^ 53 + 1` the portrait width is one less than the floor of the exact
quotient. -/
theorem imageSize_portrait_counterexample :
    imageSize 1 3 9007199254740993 1 = (3002399751580330, 1)
      ∧ ⌊(((9007199254740993 : ℤ) : ℚ) * ((1 : ℤ) : ℚ)) / ((3 : ℤ) : ℚ)⌋ = 3002399751580331
      ∧ imageSize 1 3 9007199254740993 1
          ≠ (⌊(((9007199254740993 : ℤ) : ℚ) * ((1 : ℤ) : ℚ)) / ((3 : ℤ) : ℚ)⌋, 1) := by
  have h1 : imageSize 1 3 9007199254740993 1 = (3002399751580330, 1) := by
    unfold imageSize
    rw [if_neg (by norm_num), scale_two53_add_one_third]
  have h2 : ⌊(((9007199254740993 : ℤ) : ℚ) * ((1 : ℤ) : ℚ)) / ((3 : ℤ) : ℚ)⌋
      = 3002399751580331 := by
    rw [Int.floor_eq_iff]
    constructor <;> norm_num
  refine ⟨h1, h2, ?_⟩
  rw [h1, h2]
  decide

/-- C9 (amended): for a square bounding box (`maxWidth = maxHeight`) and positive
dimensions whose products with the box edge stay below `2 ^ 53`, the derived
dimension differs by less than 1 from the pinned dimension scaled by the source
aspect ratio: the height when the width is pinned (`sourceWidth > sourceHeight`),
the width when the height is pinned. -/
theorem imageSize_aspect_square_box (sw sh mw mh : ℤ) (hsw : 0 < sw) (hsh : 0 < sh)
    (hmw : 0 < mw) (hmh : 0 < mh) (hbox : mw = mh) (hw : mw * sw < 2 ^ 53)
    (hh : mh * sh < 2 ^ 53) :
    (sw > sh →
        |((imageSize sw sh mw mh).2 : ℚ) - (imageSize sw sh mw mh).1 * sh / sw| < 1)
      ∧ (¬ sw > sh →
        |((imageSize sw sh mw mh).1 : ℚ) - (imageSize sw sh mw mh).2 * sw / sh| < 1) := by
  subst hbox
  rw [imageSize_exact hsw hsh hmw hmh hw hh]
  constructor
  · intro h
    rw [if_pos h]
    have h1 := Int.floor_le (((mw : ℚ) * sh) / sw)
    have h2 := Int.lt_floor_add_one (((mw : ℚ) * sh) / sw)
    rw [abs_lt]
    constructor <;> simp only <;> linarith
  · intro h
    rw [if_neg h]
    have h1 := Int.floor_le (((mw : ℚ) * sw) / sh)
    have h2 := Int.lt_floor_add_one (((mw : ℚ) * sw) / sh)
    rw [abs_lt]
    constructor <;> simp only <;> linarith

/-- Witness for C9: the theorem applied at `imageSize 640 480 320 320`. -/
theorem imageSize_aspect_square_box_witness :
    ((640 : ℤ) > 480 →
        |((imageSize 640 480 320 320).2 : ℚ)
          - (imageSize 640 480 320 320).1 * (480 : ℤ) / (640 : ℤ)| < 1)
      ∧ (¬ (640 : ℤ) > 480 →
        |((imageSize 640 480 320 320).1 : ℚ)
          - (imageSize 640 480 320 320).2 * (640 : ℤ) / (480 : ℤ)| < 1) :=
  imageSize_aspect_square_box 640 480 320 320 (by norm_num) (by norm_num) (by norm_num)
    (by norm_num) rfl (by norm_num) (by norm_num)

/-- C9 as stated fails: for the box `80 × 40` and the source `200 × 100` the result is
`(80, 20)` while the pinned width scaled by the aspect ratio is `40`; and for the
square box of edge `2 ^ 53 + 1` the derived height is a full unit away. -/
theorem imageSize_aspect_counterexample :
    imageSize 200 100 80 40 = (80, 20)
      ∧ ¬ |((imageSize 200 100 80 40).2 : ℚ)
            - (imageSize 200 100 80 40).1 * (100 : ℤ) / (200 : ℤ)| < 1
      ∧ imageSize 3 1 9007199254740993 9007199254740993
          = (9007199254740993, 3002399751580330)
      ∧ ¬ |((imageSize 3 1 9007199254740993 9007199254740993).2 : ℚ)
            - (imageSize 3 1 9007199254740993 9007199254740993).1 * (1 : ℤ) / (3 : ℤ)|
          < 1 := by
  have h1 : imageSize 200 100 80 40 = (80, 20) := by
    rw [imageSize_exact (by norm_num) (by norm_num) (by norm_num) (by norm_num)
      (by norm_num) (by norm_num)]
    rw [if_pos (by norm_num)]
    have : ⌊(((40 : ℤ) : ℚ) * ((100 : ℤ) : ℚ)) / ((200 : ℤ) : ℚ)⌋ = 20 := by
      rw [Int.floor_eq_iff]
      constructor <;> norm_num
    rw [this]
  have h2 : imageSize 3 1 9007199254740993 9007199254740993
      = (9007199254740993, 3002399751580330) := by
    unfold imageSize
    rw [if_pos (by norm_num), scale_two53_add_one_third]
  refine ⟨h1, ?_, h2, ?_⟩
  · rw [h1]
    norm_num
  · rw [h2]
    norm_num

/-- C10 (amended): for positive dimensions and every bounding box, square or not,
whose products `maxWidth * sourceWidth` and `maxHeight * sourceHeight` stay below
`2 ^ 53`, the result of `imageSize` exceeds neither requested bound. -/
theorem imageSize_within_box (sw sh mw mh : ℤ) (hsw : 0 < sw) (hsh : 0 < sh)
    (hmw : 0 < mw) (hmh : 0 < mh) (hw : mw * sw < 2 ^ 53) (hh : mh * sh < 2 ^ 53) :
    (imageSize sw sh mw mh).1 ≤ mw ∧ (imageSize sw sh mw mh).2 ≤ mh :=
  imageSize_le_box hsw hsh hmw hmh hw hh

/-- Witness for C10: the theorem applied at the non-square box `80 × 40` with the
source `200 × 100`. -/
theorem imageSize_within_box_witness :
    (imageSize 200 100 80 40).1 ≤ 80 ∧ (imageSize 200 100 80 40).2 ≤ 40 :=
  imageSize_within_box 200 100 80 40 (by norm_num) (by norm_num) (by norm_num)
    (by norm_num) (by norm_num) (by norm_num)

/-- C10 as stated fails as a property of the cross-axis scaling: no positive source
and no non-square box whose products stay below `2 ^ 53` give a result that exceeds a
requested bound.  A bound is exceeded only through binary64 rounding above `2 ^ 53`:
of `maxWidth` for the box `(2 ^ 53 + 3) × 1`, of `maxHeight` for the box
`1 × (2 ^ 53 + 3)`, and in the same way for the square box of edge `2 ^ 53 + 3`. -/
theorem imageSize_exceeds_box_counterexample :
    (¬ ∃ sw sh mw mh : ℤ, 0 < sw ∧ 0 < sh ∧ 0 < mw ∧ 0 < mh
        ∧ mw * sw < 2 ^ 53 ∧ mh * sh < 2 ^ 53 ∧ mw ≠ mh
        ∧ ((imageSize sw sh mw mh).1 > mw ∨ (imageSize sw sh mw mh).2 > mh))
      ∧ imageSize 1 1 9007199254740995 1 = (9007199254740996, 1)
      ∧ imageSize 9007199254740991 9007199254740990 1 9007199254740995
          = (1, 9007199254740996)
      ∧ imageSize 1 1 9007199254740995 9007199254740995
          = (9007199254740996, 9007199254740995) := by
  refine ⟨?_, ?_, ?_, ?_⟩
  · rintro ⟨sw, sh, mw, mh, hsw, hsh, hmw, hmh, hw, hh, -, hex⟩
    have hbox := imageSize_le_box hsw hsh hmw hmh hw hh
    rcases hex with h | h
    · exact absurd hbox.1 (not_le.2 h)
    · exact absurd hbox.2 (not_le.2 h)
  · unfold imageSize
    rw [if_neg (by norm_num), scale_two53_add_three_unit]
  · unfold imageSize
    rw [if_pos (by norm_num), scale_two53_add_three_near_square]
  · unfold imageSize
    rw [if_neg (by norm_num), scale_two53_add_three_unit]

/-! ## Codec sessions -/

/-- What `closedLast` computes, stated on every way of cutting the sequence at an
`epeg_close`. -/
theorem closedLast_spec {handle : Ptr} :
    ∀ {tr : List Call}, closedLast handle tr = true →
      ∀ pre post img, tr = pre ++ Call.epeg_close img :: post →
        img = handle ∧ ∀ x ∈ post, x.onHandle img = false := by
  intro tr
  induction tr with
  | nil =>
    intro _ pre post img h
    exact absurd h (by simp)
  | cons a rest ih =>
    intro hcl pre post img h
    cases pre with
    | nil =>
      simp only [List.nil_append, List.cons.injEq] at h
      obtain ⟨rfl, rfl⟩ := h
      simp only [closedLast, Bool.and_eq_true, beq_iff_eq, List.all_eq_true,
        Bool.not_eq_true'] at hcl
      exact ⟨hcl.1.1, hcl.1.2⟩
    | cons b pre =>
      simp only [List.cons_append, List.cons.injEq] at h
      obtain ⟨rfl, hrest⟩ := h
      have hcl' : closedLast handle rest = true := by
        cases a <;> simp_all [closedLast]
      exact ih hcl' pre post img hrest

/-- The native calls of `Thumbnail`, branch by branch. -/
theorem Thumbnail_calls (c : MemoryCodec) (b : List UInt8) (width height quality : ℤ) :
    (Thumbnail c b width height quality).2 =
      if c.memory_open = 0 then
        [Call.CString b.length c.cstring,
          Call.epeg_memory_open c.cstring (cint b.length) c.memory_open,
          Call.free c.cstring]
      else if c.encode ≠ 0 then
        [Call.CString b.length c.cstring,
          Call.epeg_memory_open c.cstring (cint b.length) c.memory_open,
          Call.epeg_size_get c.memory_open,
          Call.epeg_decode_size_set c.memory_open
            (cint (imageSize c.size_get.1 c.size_get.2 width height).1)
            (cint (imageSize c.size_get.1 c.size_get.2 width height).2),
          Call.epeg_quality_set c.memory_open (cint quality),
          Call.epeg_memory_output_set c.memory_open,
          Call.epeg_encode c.memory_open c.encode,
          Call.free 0,
          Call.epeg_close c.memory_open,
          Call.free c.cstring]
      else
        [Call.CString b.length c.cstring,
          Call.epeg_memory_open c.cstring (cint b.length) c.memory_open,
          Call.epeg_size_get c.memory_open,
          Call.epeg_decode_size_set c.memory_open
            (cint (imageSize c.size_get.1 c.size_get.2 width height).1)
            (cint (imageSize c.size_get.1 c.size_get.2 width height).2),
          Call.epeg_quality_set c.memory_open (cint quality),
          Call.epeg_memory_output_set c.memory_open,
          Call.epeg_encode c.memory_open c.encode,
          Call.GoBytes c.output.p c.output.size,
          Call.free 0,
          Call.epeg_close c.memory_open,
          Call.free c.cstring] := by
  unfold Thumbnail
  by_cases h0 : c.memory_open = 0
  · simp [h0, unwind, Deferred.run, Result.Release]
  · by_cases h1 : c.encode = 0
    · simp [h0, h1, unwind, Deferred.run, Result.Release]
    · simp [h0, h1, unwind, Deferred.run, Result.Release]

/-- The values returned by `Thumbnail`, branch by branch. -/
theorem Thumbnail_result_eq (c : MemoryCodec) (b : List UInt8) (width height quality : ℤ) :
    (Thumbnail c b width height quality).1 =
      if c.memory_open = 0 then some (none, some "Epeg could not decode input image")
      else if c.encode ≠ 0 then some (none, some "Epeg encode error")
      else (GoBytes c.memory c.output.p c.output.size).map (fun bytes => (some bytes, none)) := by
  unfold Thumbnail
  by_cases h0 : c.memory_open = 0
  · simp [h0]
  · by_cases h1 : c.encode = 0
    · simp [h0, h1, Result.Bytes]
    · simp [h0, h1]

/-- The copy `C.GoBytes` returns exactly when the buffer is populated, and then it
returns the first `size` bytes of the buffer. -/
theorem GoBytes_eq_some_iff (memory : Ptr → List UInt8) (r : Result) :
    (r.populated memory →
        GoBytes memory r.p r.size = some ((memory r.p).take r.size.toNat))
      ∧ (¬ r.populated memory → GoBytes memory r.p r.size = none) := by
  unfold Result.populated GoBytes
  constructor
  · rintro (h | ⟨h1, h2, h3⟩)
    · simp [h]
    · rw [if_neg (by omega), if_neg (by omega), if_neg h2, if_pos h3]
  · intro h
    push_neg at h
    obtain ⟨h0, h1⟩ := h
    rw [if_neg h0]
    split_ifs with h2 h3 h4
    · rfl
    · rfl
    · exact absurd h4 (not_le.2 (h1 (by omega) h3))
    · rfl

/-- A run of `Thumbnail` fails to return exactly when the handle was opened, the
encoder reported success and the buffer it left is not populated (a negative length, a
null pointer, or fewer bytes than the length). -/
theorem Thumbnail_no_return_iff (c : MemoryCodec) (b : List UInt8)
    (width height quality : ℤ) :
    (Thumbnail c b width height quality).1 = none
      ↔ c.memory_open ≠ 0 ∧ c.encode = 0 ∧ ¬ c.output.populated c.memory := by
  rw [Thumbnail_result_eq]
  by_cases h0 : c.memory_open = 0
  · simp [h0]
  · by_cases h1 : c.encode = 0
    · by_cases hp : c.output.populated c.memory
      · simp [h0, h1, hp, (GoBytes_eq_some_iff c.memory c.output).1 hp]
      · simp [h0, h1, hp, (GoBytes_eq_some_iff c.memory c.output).2 hp]
    · simp [h0, h1]

/-- The result and the native calls of `Transform` once the `switch` has chosen a code. -/
theorem Transform_eq (c : FileCodec) (input output : String) (transform : ℤ)
    (code : EpegTransform) (h : transformCode transform = some code) :
    Transform c input output transform =
      if c.file_open = 0 then
        (some ("Epeg could not open image " ++ input),
          [Call.CString input.utf8ByteSize c.inputCString,
            Call.CString output.utf8ByteSize c.outputCString,
            Call.epeg_file_open c.inputCString c.file_open,
            Call.free c.outputCString,
            Call.free c.inputCString])
      else if c.transform ≠ 0 then
        (some ("Epeg transform error: error " ++ toString c.transform ++ ": " ++ c.error),
          [Call.CString input.utf8ByteSize c.inputCString,
            Call.CString output.utf8ByteSize c.outputCString,
            Call.epeg_file_open c.inputCString c.file_open,
            Call.epeg_transform_set c.file_open code,
            Call.epeg_file_output_set c.file_open c.outputCString,
            Call.epeg_transform c.file_open c.transform,
            Call.epeg_error c.file_open,
            Call.epeg_close c.file_open,
            Call.free c.outputCString,
            Call.free c.inputCString])
      else
        (none,
          [Call.CString input.utf8ByteSize c.inputCString,
            Call.CString output.utf8ByteSize c.outputCString,
            Call.epeg_file_open c.inputCString c.file_open,
            Call.epeg_transform_set c.file_open code,
            Call.epeg_file_output_set c.file_open c.outputCString,
            Call.epeg_transform c.file_open c.transform,
            Call.epeg_close c.file_open,
            Call.free c.outputCString,
            Call.free c.inputCString]) := by
  unfold Transform
  rw [h]
  by_cases h0 : c.file_open = 0
  · simp [h0, unwind, Deferred.run, Result.Release]
  · by_cases h1 : c.transform = 0
    · simp [h0, h1, unwind, Deferred.run, Result.Release]
    · simp [h0, h1, unwind, Deferred.run, Result.Release]

/-- The `default` arm of the `switch`: an error and no native call. -/
theorem Transform_default (c : FileCodec) (input output : String) (transform : ℤ)
    (h : transformCode transform = none) :
    Transform c input output transform = (some "Epeg invalid transformation", []) := by
  unfold Transform
  rw [h]

/-- The `switch` takes its `default` arm exactly outside `0 .. 7`. -/
theorem transformCode_eq_none_iff (t : ℤ) : transformCode t = none ↔ t < 0 ∨ 7 < t := by
  unfold transformCode TransformNone TransformFlipH TransformFlipV TransformTranspose
    TransformTransverse TransformRot90 TransformRot180 TransformRot270
  constructor
  · intro h
    split_ifs at h
    omega
  · intro h
    split_ifs <;> first | omega | rfl

/-- The file-open message is never a transform-error message. -/
theorem open_ne_transform_message (a b : String) :
    "Epeg could not open image " ++ a ≠ "Epeg transform error: error " ++ b := by
  intro h
  have h2 := congrArg String.data h
  simp [String.data_append] at h2

/-- The invalid-transformation message is never a file-open message. -/
theorem invalid_ne_open_message (a : String) :
    "Epeg invalid transformation" ≠ "Epeg could not open image " ++ a := by
  intro h
  have h2 := congrArg String.data h
  simp [String.data_append] at h2

/-- The invalid-transformation message is never a transform-error message. -/
theorem invalid_ne_transform_message (b : String) :
    "Epeg invalid transformation" ≠ "Epeg transform error: error " ++ b := by
  intro h
  have h2 := congrArg String.data h
  simp [String.data_append] at h2

/-- For every run of `Thumbnail` that opened a handle and in which the encoder left
a buffer at `c.output.p` (not null, not the input copy), that buffer is never passed
to `free`: the deferred `Release` frees the null pointer it captured. -/
theorem Thumbnail_never_frees_output (c : MemoryCodec) (b : List UInt8)
    (width height quality : ℤ) (hp : c.output.p ≠ 0) (hq : c.output.p ≠ c.cstring) :
    Call.free c.output.p ∉ (Thumbnail c b width height quality).2 := by
  rw [Thumbnail_calls]
  split_ifs <;> simp [hp, hq]

/-! ## Claims about the codec sessions -/

/-- C3: in every run of `Thumbnail` and of `Transform`, whatever the codec answers,
the number of `epeg_close` calls equals the number of opens that reported a handle,
which is at most one; every `epeg_close` is made on the handle that was opened, and
no call on that handle follows it. -/
theorem close_matches_open (c : MemoryCodec) (b : List UInt8) (width height quality : ℤ)
    (f : FileCodec) (input output : String) (transform : ℤ) :
    ((Thumbnail c b width height quality).2.countP Call.isClose
          = (Thumbnail c b width height quality).2.countP Call.isOpened
        ∧ (Thumbnail c b width height quality).2.countP Call.isOpened
          = (if c.memory_open = 0 then 0 else 1)
        ∧ ∀ pre post img,
            (Thumbnail c b width height quality).2 = pre ++ Call.epeg_close img :: post →
              img = c.memory_open ∧ ∀ x ∈ post, x.onHandle img = false)
      ∧ ((Transform f input output transform).2.countP Call.isClose
          = (Transform f input output transform).2.countP Call.isOpened
        ∧ (Transform f input output transform).2.countP Call.isOpened ≤ 1
        ∧ ∀ pre post img,
            (Transform f input output transform).2 = pre ++ Call.epeg_close img :: post →
              img = f.file_open ∧ ∀ x ∈ post, x.onHandle img = false) := by
  constructor
  · have hcl : closedLast c.memory_open (Thumbnail c b width height quality).2 = true := by
      rw [Thumbnail_calls]
      split_ifs <;> simp [closedLast, Call.onHandle]
    refine ⟨?_, ?_, closedLast_spec hcl⟩
    · rw [Thumbnail_calls]
      split_ifs with h0 h1 <;> simp [Call.isClose, Call.isOpened, h0]
    · rw [Thumbnail_calls]
      split_ifs with h0 h1 <;> simp [Call.isOpened, h0]
  · cases hcode : transformCode transform with
    | none =>
      rw [Transform_default f input output transform hcode]
      refine ⟨by simp, by simp, ?_⟩
      intro pre post img h
      exact absurd h (by simp)
    | some code =>
      have hcl : closedLast f.file_open (Transform f input output transform).2 = true := by
        rw [Transform_eq f input output transform code hcode]
        split_ifs <;> simp [closedLast, Call.onHandle]
      refine ⟨?_, ?_, closedLast_spec hcl⟩
      · rw [Transform_eq f input output transform code hcode]
        split_ifs with h0 h1 <;> simp [Call.isClose, Call.isOpened, h0]
      · rw [Transform_eq f input output transform code hcode]
        split_ifs with h0 h1 <;> simp [Call.isOpened, h0]

/-- C4 (the code at the failing input): the encoder succeeds and leaves a four-byte
buffer at the address `3000`; `Thumbnail` returns its bytes, copies them with
`GoBytes` before `epeg_close`, but never frees the address `3000`: the one release
it performs is `free` of the null pointer. -/
theorem Thumbnail_release_frees_nil :
    (Thumbnail encodedRun [0xFF, 0xD8, 0xFF, 0xD9] 80 80 75).1
        = some (some [0xFF, 0xD8, 0xFF, 0xD9], none)
      ∧ (Thumbnail encodedRun [0xFF, 0xD8, 0xFF, 0xD9] 80 80 75).2.count (Call.free 3000) = 0
      ∧ (Thumbnail encodedRun [0xFF, 0xD8, 0xFF, 0xD9] 80 80 75).2.count (Call.free 0) = 1
      ∧ (Thumbnail encodedRun [0xFF, 0xD8, 0xFF, 0xD9] 80 80 75).2.count
          (Call.GoBytes 3000 4) = 1 := by
  refine ⟨?_, ?_, ?_, ?_⟩
  · rw [Thumbnail_result_eq]
    simp [encodedRun, GoBytes]
  · rw [Thumbnail_calls]
    simp [encodedRun]
  · rw [Thumbnail_calls]
    simp [encodedRun]
  · rw [Thumbnail_calls]
    simp [encodedRun]

/-- C5: `Thumbnail` returns the decode-open error with no bytes exactly when
`epeg_memory_open` reports no handle; the fixed encode error with no bytes exactly
when a handle was opened and `epeg_encode` returned a non-zero status; and, the
encoder having populated the buffer, no error with the first `size` bytes of that
buffer exactly in the remaining case. -/
theorem Thumbnail_result (c : MemoryCodec) (b : List UInt8) (width height quality : ℤ) :
    ((Thumbnail c b width height quality).1
          = some (none, some "Epeg could not decode input image") ↔ c.memory_open = 0)
      ∧ ((Thumbnail c b width height quality).1 = some (none, some "Epeg encode error")
          ↔ c.memory_open ≠ 0 ∧ c.encode ≠ 0)
      ∧ (c.output.populated c.memory →
          ((Thumbnail c b width height quality).1
              = some (some ((c.memory c.output.p).take c.output.size.toNat), none)
            ↔ c.memory_open ≠ 0 ∧ c.encode = 0)) := by
  rw [Thumbnail_result_eq]
  refine ⟨?_, ?_, ?_⟩
  · by_cases h0 : c.memory_open = 0
    · simp [h0]
    · by_cases h1 : c.encode = 0
      · cases hg : GoBytes c.memory c.output.p c.output.size <;> simp [h0, h1]
      · simp [h0, h1]
  · by_cases h0 : c.memory_open = 0
    · simp [h0]
    · by_cases h1 : c.encode = 0
      · cases hg : GoBytes c.memory c.output.p c.output.size <;> simp [h0, h1]
      · simp [h0, h1]
  · intro hp
    rw [(GoBytes_eq_some_iff c.memory c.output).1 hp]
    by_cases h0 : c.memory_open = 0
    · simp [h0]
    · by_cases h1 : c.encode = 0
      · simp [h0, h1]
      · simp [h0, h1]

/-- Witness for C5: the theorem applied to the run `encodedRun`, whose buffer of four
bytes at the address `3000` is populated; the run returns these four bytes. -/
theorem Thumbnail_result_witness :
    encodedRun.output.populated encodedRun.memory
      ∧ (Thumbnail encodedRun [0xFF, 0xD8, 0xFF, 0xD9] 80 80 75).1
        = some (some ((encodedRun.memory encodedRun.output.p).take
            encodedRun.output.size.toNat), none) := by
  have hp : encodedRun.output.populated encodedRun.memory := by
    refine Or.inr ⟨?_, ?_, ?_⟩ <;> simp [encodedRun]
  exact ⟨hp, ((Thumbnail_result encodedRun [0xFF, 0xD8, 0xFF, 0xD9] 80 80 75).2.2 hp).2
    ⟨by simp [encodedRun], by simp [encodedRun]⟩⟩

/-- C6: for a transform value inside the declared enumeration, `Transform` returns
the file-open error, whose message ends with the input path, exactly when
`epeg_file_open` reports no handle; the transform error carrying the status code and
the text read by `epeg_error` exactly when a handle was opened and `epeg_transform`
returned a non-zero status; and no error otherwise. -/
theorem Transform_result (f : FileCodec) (input output : String) (transform : ℤ)
    (hlo : 0 ≤ transform) (hhi : transform ≤ 7) :
    ((Transform f input output transform).1 = some ("Epeg could not open image " ++ input)
          ↔ f.file_open = 0)
      ∧ input.data <:+ ("Epeg could not open image " ++ input).data
      ∧ ((Transform f input output transform).1
            = some ("Epeg transform error: error " ++ toString f.transform ++ ": " ++ f.error)
          ↔ f.file_open ≠ 0 ∧ f.transform ≠ 0)
      ∧ ((Transform f input output transform).1 = none
          ↔ f.file_open ≠ 0 ∧ f.transform = 0) := by
  have hcode : ∃ code, transformCode transform = some code := by
    cases h : transformCode transform with
    | none =>
      have := (transformCode_eq_none_iff transform).1 h
      omega
    | some code => exact ⟨code, rfl⟩
  obtain ⟨code, hcode⟩ := hcode
  have hne := open_ne_transform_message input (toString f.transform ++ ": " ++ f.error)
  rw [Transform_eq f input output transform code hcode]
  refine ⟨?_, ?_, ?_, ?_⟩
  · by_cases h0 : f.file_open = 0
    · simp [h0]
    · by_cases h1 : f.transform = 0
      · simp [h0, h1]
      · simp only [h0, h1, if_false, ne_eq, not_false_eq_true, if_true, iff_false]
        intro h
        apply hne
        simpa [String.append_assoc] using (Option.some.inj h).symm
  · rw [String.data_append]
    exact List.suffix_append _ _
  · by_cases h0 : f.file_open = 0
    · simp only [h0, if_true, ne_eq, not_true_eq_false, false_and, iff_false]
      intro h
      apply hne
      simpa [String.append_assoc] using (Option.some.inj h)
    · by_cases h1 : f.transform = 0
      · simp [h0, h1]
      · simp [h0, h1]
  · by_cases h0 : f.file_open = 0
    · simp [h0]
    · by_cases h1 : f.transform = 0
      · simp [h0, h1]
      · simp [h0, h1]

/-- Witness for C6: the theorem applied to `Rot180` (value 6) on a run where the open
fails. -/
theorem Transform_result_witness :
    (Transform ⟨10, 20, 0, 0, ""⟩ "in.jpg" "out.jpg" 6).1
      = some ("Epeg could not open image " ++ "in.jpg") :=
  (Transform_result ⟨10, 20, 0, 0, ""⟩ "in.jpg" "out.jpg" 6 (by decide) (by decide)).1.2 rfl

/-- C7: the `switch` of `Transform` sends the eight declared values `0 .. 7` to the
native codes `NONE, FLIP_H, FLIP_V, TRANSPOSE, TRANSVERSE, ROT_90, ROT_180, ROT_270`
in this order; no two values receive the same code; the order is preserved; and a
value is rejected with the invalid-transformation error exactly when it lies outside
`0 .. 7`. -/
theorem transformCode_mapping (f : FileCodec) (input output : String) :
    (transformCode TransformNone = some .NONE
        ∧ transformCode TransformFlipH = some .FLIP_H
        ∧ transformCode TransformFlipV = some .FLIP_V
        ∧ transformCode TransformTranspose = some .TRANSPOSE
        ∧ transformCode TransformTransverse = some .TRANSVERSE
        ∧ transformCode TransformRot90 = some .ROT_90
        ∧ transformCode TransformRot180 = some .ROT_180
        ∧ transformCode TransformRot270 = some .ROT_270)
      ∧ (TransformNone = 0 ∧ TransformFlipH = 1 ∧ TransformFlipV = 2
        ∧ TransformTranspose = 3 ∧ TransformTransverse = 4 ∧ TransformRot90 = 5
        ∧ TransformRot180 = 6 ∧ TransformRot270 = 7)
      ∧ (∀ t : ℤ, (∃ code, transformCode t = some code) ↔ 0 ≤ t ∧ t ≤ 7)
      ∧ (∀ t₁ t₂ : ℤ, ∀ code, transformCode t₁ = some code → transformCode t₂ = some code →
          t₁ = t₂)
      ∧ (∀ t₁ t₂ : ℤ, ∀ c₁ c₂, transformCode t₁ = some c₁ → transformCode t₂ = some c₂ →
          t₁ < t₂ → c₁.index < c₂.index)
      ∧ (∀ t : ℤ, (Transform f input output t).1 = some "Epeg invalid transformation"
          ↔ t < 0 ∨ 7 < t) := by
  have key : ∀ t : ℤ, ∀ code, transformCode t = some code → code.index = t := by
    intro t code h
    unfold transformCode TransformNone TransformFlipH TransformFlipV TransformTranspose
      TransformTransverse TransformRot90 TransformRot180 TransformRot270 at h
    split_ifs at h <;> cases h <;> simp [EpegTransform.index, *]
  refine ⟨by decide, by decide, ?_, ?_, ?_, ?_⟩
  · intro t
    constructor
    · rintro ⟨code, h⟩
      by_contra hcon
      have : transformCode t = none := (transformCode_eq_none_iff t).2 (by omega)
      rw [this] at h
      cases h
    · intro h
      cases hc : transformCode t with
      | none =>
        have := (transformCode_eq_none_iff t).1 hc
        omega
      | some code => exact ⟨code, rfl⟩
  · intro t₁ t₂ code h₁ h₂
    rw [← key t₁ code h₁, ← key t₂ code h₂]
  · intro t₁ t₂ c₁ c₂ h₁ h₂ hlt
    rw [key t₁ c₁ h₁, key t₂ c₂ h₂]
    exact hlt
  · intro t
    cases hc : transformCode t with
    | none =>
      rw [Transform_default f input output t hc]
      simpa using (transformCode_eq_none_iff t).1 hc
    | some code =>
      have hin : ¬ (t < 0 ∨ 7 < t) := by
        intro h
        have := (transformCode_eq_none_iff t).2 h
        rw [this] at hc
        cases hc
      rw [Transform_eq f input output t code hc]
      simp only [hin, iff_false]
      split_ifs
      · intro h
        exact invalid_ne_open_message input (Option.some.inj h).symm
      · intro h
        apply invalid_ne_transform_message (toString f.transform ++ ": " ++ f.error)
        simpa [String.append_assoc] using (Option.some.inj h).symm
      · simp

/-- C8: for a transform value outside the declared enumeration `Transform` returns
the invalid-transformation error and makes no native call at all. -/
theorem Transform_invalid (f : FileCodec) (input output : String) (transform : ℤ)
    (h : transform < 0 ∨ 7 < transform) :
    Transform f input output transform = (some "Epeg invalid transformation", []) :=
  Transform_default f input output transform ((transformCode_eq_none_iff transform).2 h)

/-- Witness for C8: the theorem applied to the value 8. -/
theorem Transform_invalid_witness :
    ((8 : ℤ) < 0 ∨ (7 : ℤ) < 8)
      ∧ Transform ⟨10, 20, 30, 0, ""⟩ "in.jpg" "out.jpg" 8
        = (some "Epeg invalid transformation", []) :=
  ⟨by decide, Transform_invalid ⟨10, 20, 30, 0, ""⟩ "in.jpg" "out.jpg" 8 (by decide)⟩

end Epeg
